import Mathlib

/-!
Verification of `src/shapley_explainer.py` (class `ShapleyExplainer`).

The Python code is shallowly embedded over exact rationals (`ℚ` models the
Python floats; every concrete computation in the claims is dyadic, so the
embedding is exact).  A dataset is a list of rows (`List (List ℚ)`), a model
is a row-wise prediction function `List (List ℚ) → List ℚ`, and Python tuples
of feature indices are `List ℤ` (Python ints are `ℤ`).

Fallible code (`math.factorial` on a negative argument raises `ValueError`)
is embedded with `Option`.
-/

namespace ShapleyExplainer

/-- A predictive model: takes a dataset (list of rows) and returns the vector
of predictions, one per row for a well-behaved model (the code never checks
this). Embeds the `model` attribute of `ShapleyExplainer`. -/
abbrev Model : Type := List (List ℚ) → List ℚ

/-- `itertools.combinations items r`: all `r`-element combinations of `items`,
keeping the original order, in the order `itertools` yields them
(`combinations [a,b,c] 2 = [[a,b],[a,c],[b,c]]`). -/
def combinations {α : Type} : ℕ → List α → List (List α)
  | 0, _ => [[]]
  | _ + 1, [] => []
  | r + 1, x :: xs => ((combinations r xs).map (fun l => x :: l)) ++ combinations (r + 1) xs

/-- `_get_all_subsets(items)`: `chain.from_iterable(combinations(items, r)
for r in range(len(items)+1))`. -/
def getAllSubsets {α : Type} (items : List α) : List (List α) :=
  (List.range (items.length + 1)).flatMap (fun r => combinations r items)

/-- `_get_all_other_feature_subsets(n_features, feature_of_interest)`:
all subsets of `[i for i in range(n_features) if i != feature_of_interest]`.
Python's `range(n)` is empty for `n ≤ 0`, hence the `Int.toNat`. -/
def getAllOtherFeatureSubsets (n_features feature_of_interest : ℤ) : List (List ℤ) :=
  getAllSubsets
    (((List.range n_features.toNat).map (fun i : ℕ => (i : ℤ))).filter
      (fun i => i != feature_of_interest))

/-- `math.factorial(n)` for a Python int `n`: raises `ValueError` (modelled as
`none`) when `n < 0`. -/
def factorialZ (n : ℤ) : Option ℕ :=
  if 0 ≤ n then some n.toNat.factorial else none

/-- `_permutation_factor(n_features, n_subset)`:
`factorial(n_subset) * factorial(n_features - n_subset - 1) / factorial(n_features)`.
`none` models the `ValueError` raised when a factorial argument is negative. -/
def permutationFactor (n_features n_subset : ℤ) : Option ℚ := do
  let a ← factorialZ n_subset
  let b ← factorialZ (n_features - n_subset - 1)
  let c ← factorialZ n_features
  pure (((a : ℚ) * (b : ℚ)) / (c : ℚ))

/-- One row of the synthetic dataset built by `_subset_model_approximation`.
The Python loop is `for j in range(0, n_features - 1)` where
`n_features = len(dataset)` is the number of ROWS of the background dataset
(`numRows` here), so entry `j` of a row is overwritten with `instance[j]` (here `inst`)
exactly when `j ∈ feature_subset` and `j + 1 < numRows`. -/
def overwriteRow (numRows : ℕ) (feature_subset : List ℤ) (inst : List ℚ)
    (row : List ℚ) : List ℚ :=
  (List.range row.length).map (fun j =>
    if j + 1 ≤ numRows - 1 ∧ (j : ℤ) ∈ feature_subset then inst.getD j 0 else row.getD j 0)

/-- `_subset_model_approximation(feature_subset, instance)`: deep-copies the
background dataset, overwrites the columns selected by the (buggy) loop, runs
the model on the synthetic dataset and returns the mean prediction.
`np.mean` of an empty vector is undefined (NaN); the claims never reach it
(`ℚ` division by zero returns 0 there). -/
def subsetModelApproximation (model : Model) (background : List (List ℚ))
    (feature_subset : List ℤ) (inst : List ℚ) : ℚ :=
  let dataset := background.map (overwriteRow background.length feature_subset inst)
  let predictions := model dataset
  predictions.sum / (predictions.length : ℚ)

/-- `_compute_single_shapley_value(feature, instance)`: accumulates
`weight * (with_feature - without_feature)` over all subsets of the other
features.  A `ValueError` inside `_permutation_factor` propagates (`Option`). -/
def computeSingleShapleyValue (model : Model) (background : List (List ℚ))
    (feature : ℤ) (inst : List ℚ) : Option ℚ :=
  (getAllOtherFeatureSubsets (inst.length : ℤ) feature).foldlM
    (fun acc S => do
      let S_plus_feature := S ++ [feature]
      let without_feature := subsetModelApproximation model background S inst
      let with_feature := subsetModelApproximation model background S_plus_feature inst
      let weight ← permutationFactor (inst.length : ℤ) (S.length : ℤ)
      pure (acc + weight * (with_feature - without_feature)))
    (0 : ℚ)

/-- `shapley_values(X)` when `X` (and the output allocated by `np.zeros_like`)
has a float dtype: entry `[i, j]` is the Shapley value of feature `j` for
row `i` of `X`, stored exactly. -/
def shapleyValues (model : Model) (background : List (List ℚ))
    (X : List (List ℚ)) : Option (List (List ℚ)) :=
  X.mapM (fun row =>
    (List.range row.length).mapM (fun j : ℕ =>
      computeSingleShapleyValue model background (j : ℤ) row))

/-- Truncation toward zero of a rational, the C-style cast NumPy applies when
a Python float is stored into an integer-dtype array entry. -/
def ratTrunc (q : ℚ) : ℤ :=
  if 0 ≤ q then ⌊q⌋ else -⌊-q⌋

/-- `shapley_values(X)` when `X` has an integer dtype: `np.zeros_like(X)`
allocates an integer output array, so each computed float Shapley value is
truncated toward zero when stored. -/
def shapleyValuesInt (model : Model) (background : List (List ℚ))
    (X : List (List ℤ)) : Option (List (List ℤ)) :=
  X.mapM (fun row =>
    (List.range row.length).mapM (fun j : ℕ =>
      (computeSingleShapleyValue model background (j : ℤ)
        (row.map (fun z : ℤ => (z : ℚ)))).map ratTrunc))

/-- Modelled from the spec: the synthetic-dataset construction described by the
specification of `_subset_model_approximation` — "for every column index that
belongs to the coalition, overwrite that entire column with the corresponding
scalar value from the instance; columns not in the coalition retain their
original background values" — followed by the mean model prediction.  Used
only to state how the code diverges from the spec. -/
def subsetModelApproximationSpec (model : Model) (background : List (List ℚ))
    (feature_subset : List ℤ) (inst : List ℚ) : ℚ :=
  let dataset := background.map (fun row =>
    (List.range row.length).map (fun j =>
      if (Int.ofNat j) ∈ feature_subset then inst.getD j 0 else row.getD j 0))
  let predictions := model dataset
  predictions.sum / (predictions.length : ℚ)

/-- The linear model `f(x0, x1) = 2*x0 + 3*x1` of the spec's concrete
scenario, applied row-wise. -/
def linModel : Model := fun rows => rows.map (fun r => 2 * r.getD 0 0 + 3 * r.getD 1 0)

/-- The background dataset `[[0, 0], [2, 2]]` of the spec's concrete scenario. -/
def bg22 : List (List ℚ) := [[0, 0], [2, 2]]

/-- A one-feature identity model `f(x0) = x0`, applied row-wise. -/
def idModel : Model := fun rows => rows.map (fun r => r.getD 0 0)

/-- The exact value `_permutation_factor` computes on valid arguments:
`s! * (M - s - 1)! / M!` over `ℚ`. -/
def permFactorQ (M s : ℕ) : ℚ :=
  ((s.factorial : ℚ) * ((M - s - 1).factorial : ℚ)) / (M.factorial : ℚ)

/-- The sum of `_permutation_factor(M, s)` over `s = 0 .. M-1` (propagating a
`ValueError` as `none`). -/
def sumPermutationFactors (M : ℕ) : Option ℚ :=
  ((List.range M).mapM (fun s : ℕ => permutationFactor (M : ℤ) (s : ℤ))).map List.sum

/-! ### State-passing embedding

For the frame claim, the explainer object is embedded as an explicit state
(`model`, `background_dataset`) threaded through every method call.
`deepcopy(self.background_dataset)` yields a fresh local value `dataset`; the
Python code's only assignment (`dataset[:, j] = instance[j]`) mutates that
local copy, so each method returns the object state it received. -/

/-- The `ShapleyExplainer` object: the attributes stored by `__init__`. -/
structure ExplainerState where
  model : Model
  background : List (List ℚ)

/-- `_subset_model_approximation` with the object state threaded explicitly:
returns the mean prediction together with the state after the call. -/
def subsetModelApproximationSt (st : ExplainerState) (feature_subset : List ℤ)
    (inst : List ℚ) : ℚ × ExplainerState :=
  let dataset := st.background.map (overwriteRow st.background.length feature_subset inst)
  let predictions := st.model dataset
  (predictions.sum / (predictions.length : ℚ), st)

/-- `_compute_single_shapley_value` with the object state threaded through
every `_subset_model_approximation` call. -/
def computeSingleShapleyValueSt (st : ExplainerState) (feature : ℤ)
    (inst : List ℚ) : Option ℚ × ExplainerState :=
  (getAllOtherFeatureSubsets (inst.length : ℤ) feature).foldl
    (fun p S =>
      let q1 := subsetModelApproximationSt p.2 S inst
      let q2 := subsetModelApproximationSt q1.2 (S ++ [feature]) inst
      match p.1, permutationFactor (inst.length : ℤ) (S.length : ℤ) with
      | some acc, some w => (some (acc + w * (q2.1 - q1.1)), q2.2)
      | _, _ => (none, q2.2))
    (some 0, st)

/-- `shapley_values` with the object state threaded through every
`_compute_single_shapley_value` call. -/
def shapleyValuesSt (st : ExplainerState) (X : List (List ℚ)) :
    Option (List (List ℚ)) × ExplainerState :=
  X.foldl (fun p row =>
    let q := (List.range row.length).foldl (fun q j =>
      let r := computeSingleShapleyValueSt q.2 (j : ℤ) row
      (match q.1, r.1 with
       | some acc, some v => some (acc ++ [v])
       | _, _ => none, r.2)) (some [], p.2)
    (match p.1, q.1 with
     | some rows, some row' => some (rows ++ [row'])
     | _, _ => none, q.2)) (some [], st)

/-! ### Helper lemmas about the subset enumerator -/

theorem combinations_length {α : Type} (r : ℕ) (xs : List α) :
    (combinations r xs).length = xs.length.choose r := by
  induction xs generalizing r with
  | nil =>
    cases r with
    | zero => simp [combinations]
    | succ r => simp [combinations]
  | cons x xs ih =>
    cases r with
    | zero => simp [combinations]
    | succ r =>
      simp [combinations, ih, Nat.choose_succ_succ, Nat.add_comm]

theorem mem_combinations {α : Type} {r : ℕ} {xs l : List α} :
    l ∈ combinations r xs ↔ l.Sublist xs ∧ l.length = r := by
  induction xs generalizing r l with
  | nil =>
    cases r with
    | zero =>
      simp only [combinations, List.mem_singleton, List.sublist_nil]
      constructor
      · rintro rfl; simp
      · rintro ⟨rfl, _⟩; rfl
    | succ r =>
      simp only [combinations, List.not_mem_nil, false_iff, not_and, List.sublist_nil]
      rintro rfl; simp
  | cons x xs ih =>
    cases r with
    | zero =>
      simp only [combinations, List.mem_singleton]
      constructor
      · rintro rfl; exact ⟨List.nil_sublist _, rfl⟩
      · rintro ⟨_, hl⟩; exact List.length_eq_zero.mp hl
    | succ r =>
      simp only [combinations, List.mem_append, List.mem_map]
      constructor
      · rintro (⟨t, ht, rfl⟩ | hl)
        · rcases ih.mp ht with ⟨hsub, hlen⟩
          exact ⟨List.Sublist.cons₂ x hsub, by simp [hlen]⟩
        · rcases ih.mp hl with ⟨hsub, hlen⟩
          exact ⟨List.Sublist.cons x hsub, hlen⟩
      · rintro ⟨hsub, hlen⟩
        cases hsub with
        | cons _ h => exact Or.inr (ih.mpr ⟨h, hlen⟩)
        | cons₂ _ h =>
          exact Or.inl ⟨_, ih.mpr ⟨h, by simpa using hlen⟩, rfl⟩

theorem combinations_nodup {α : Type} {xs : List α} (r : ℕ) (h : xs.Nodup) :
    (combinations r xs).Nodup := by
  induction xs generalizing r with
  | nil =>
    cases r with
    | zero => simp [combinations]
    | succ r => simp [combinations]
  | cons x xs ih =>
    rcases List.nodup_cons.mp h with ⟨hx, hxs⟩
    cases r with
    | zero => simp [combinations]
    | succ r =>
      simp only [combinations]
      refine List.Nodup.append ((ih r hxs).map ?_) (ih (r + 1) hxs) ?_
      · intro a b hab
        exact List.tail_eq_of_cons_eq hab
      · intro l hl hl'
        rcases List.mem_map.mp hl with ⟨t, _, rfl⟩
        rcases mem_combinations.mp hl' with ⟨hsub, _⟩
        exact hx (hsub.subset (List.mem_cons_self x t))

theorem getAllSubsets_length {α : Type} (items : List α) :
    (getAllSubsets items).length = 2 ^ items.length := by
  unfold getAllSubsets
  rw [List.length_flatMap]
  have : List.map (List.length ∘ fun r => combinations r items)
      (List.range (items.length + 1))
      = List.map (fun r => items.length.choose r) (List.range (items.length + 1)) := by
    simp [Function.comp, combinations_length]
  rw [this]
  have hsum : ((List.range (items.length + 1)).map
      (fun r => items.length.choose r)).sum
      = ∑ r ∈ Finset.range (items.length + 1), items.length.choose r := rfl
  rw [hsum, Nat.sum_range_choose]

theorem mem_getAllSubsets {α : Type} {items l : List α} :
    l ∈ getAllSubsets items ↔ l.Sublist items := by
  unfold getAllSubsets
  simp only [List.mem_flatMap, List.mem_range]
  constructor
  · rintro ⟨r, _, hl⟩
    exact (mem_combinations.mp hl).1
  · intro hsub
    exact ⟨l.length, Nat.lt_succ_of_le hsub.length_le, mem_combinations.mpr ⟨hsub, rfl⟩⟩

theorem getAllSubsets_nodup {α : Type} {items : List α} (h : items.Nodup) :
    (getAllSubsets items).Nodup := by
  unfold getAllSubsets
  rw [List.nodup_flatMap]
  refine ⟨fun r _ => combinations_nodup r h, ?_⟩
  have hmono : ∀ r s : ℕ, r < s → List.Disjoint (combinations r items) (combinations s items) := by
    intro r s hrs l hlr hls
    rcases mem_combinations.mp hlr with ⟨_, h1⟩
    rcases mem_combinations.mp hls with ⟨_, h2⟩
    omega
  exact (List.pairwise_lt_range _).imp (fun hab => hmono _ _ hab)

/-- C7: for every finite list of K distinct indices, `_get_all_subsets` yields
exactly `2^K` subsets, pairwise distinct, each without duplicate elements and
containing only indices from the input; the empty input yields exactly one
subset, the empty one. -/
theorem c7_get_all_subsets_enumeration (items : List ℤ) (h : items.Nodup) :
    (getAllSubsets items).length = 2 ^ items.length ∧
    (getAllSubsets items).Nodup ∧
    (∀ l ∈ getAllSubsets items, l.Nodup ∧ ∀ x ∈ l, x ∈ items) ∧
    getAllSubsets ([] : List ℤ) = [[]] := by
  refine ⟨getAllSubsets_length items, getAllSubsets_nodup h, ?_, rfl⟩
  intro l hl
  have hsub := mem_getAllSubsets.mp hl
  exact ⟨hsub.nodup h, fun x hx => hsub.subset hx⟩

/-- Witness for C7 at the concrete input `[0, 1, 2]`. -/
theorem c7_get_all_subsets_enumeration_witness :
    (getAllSubsets ([0, 1, 2] : List ℤ)).length = 2 ^ ([0, 1, 2] : List ℤ).length ∧
    (getAllSubsets ([0, 1, 2] : List ℤ)).Nodup ∧
    (∀ l ∈ getAllSubsets ([0, 1, 2] : List ℤ),
      l.Nodup ∧ ∀ x ∈ l, x ∈ ([0, 1, 2] : List ℤ)) ∧
    getAllSubsets ([] : List ℤ) = [[]] :=
  c7_get_all_subsets_enumeration [0, 1, 2] (by decide)

/-- C8: for `M ≥ 1` and `0 ≤ f < M`, `_get_all_other_feature_subsets(M, f)`
yields exactly the subsets (order-preserving sublists) of the `(M-1)`-element
list `[i for i in range(M) if i != f]`: there are `2^(M-1)` of them, none
contains `f`, every one has size at most `M-1`, and every member is an index
in `[0, M)`. -/
theorem c8_other_feature_subsets (M : ℕ) (f : ℤ) (hM : 1 ≤ M) (hf0 : 0 ≤ f)
    (hfM : f < (M : ℤ)) :
    (getAllOtherFeatureSubsets (M : ℤ) f).length = 2 ^ (M - 1) ∧
    (∀ l, l ∈ getAllOtherFeatureSubsets (M : ℤ) f ↔
      l.Sublist (((List.range M).map (fun i : ℕ => (i : ℤ))).filter (fun i => i != f))) ∧
    (∀ l ∈ getAllOtherFeatureSubsets (M : ℤ) f,
      f ∉ l ∧ l.length ≤ M - 1 ∧ ∀ x ∈ l, 0 ≤ x ∧ x < (M : ℤ)) := by
  have hinj : Function.Injective (fun i : ℕ => (i : ℤ)) := fun a b hab =>
    Int.natCast_inj.mp hab
  have hbase_nodup : (((List.range M).map (fun i : ℕ => (i : ℤ)))).Nodup :=
    (List.nodup_range M).map hinj
  have hfmem : f ∈ ((List.range M).map (fun i : ℕ => (i : ℤ))) := by
    refine List.mem_map.mpr ⟨f.toNat, List.mem_range.mpr (by omega), Int.toNat_of_nonneg hf0⟩
  have hunfold : getAllOtherFeatureSubsets (M : ℤ) f
      = getAllSubsets (((List.range M).map (fun i : ℕ => (i : ℤ))).filter (fun i => i != f)) := by
    unfold getAllOtherFeatureSubsets
    rw [Int.toNat_natCast]
  have hfl_erase : (((List.range M).map (fun i : ℕ => (i : ℤ))).filter (fun i => i != f))
      = (((List.range M).map (fun i : ℕ => (i : ℤ)))).erase f :=
    (hbase_nodup.erase_eq_filter f).symm
  have hfl_len : ((((List.range M).map (fun i : ℕ => (i : ℤ))).filter (fun i => i != f))).length
      = M - 1 := by
    rw [hfl_erase, List.length_erase_of_mem hfmem]
    simp
  have hmem_fl : ∀ x, x ∈ (((List.range M).map (fun i : ℕ => (i : ℤ))).filter (fun i => i != f)) →
      x ≠ f ∧ 0 ≤ x ∧ x < (M : ℤ) := by
    intro x hx
    rcases List.mem_filter.mp hx with ⟨hxb, hxf⟩
    rcases List.mem_map.mp hxb with ⟨i, hi, rfl⟩
    refine ⟨by simpa using hxf, by omega, ?_⟩
    exact_mod_cast List.mem_range.mp hi
  refine ⟨?_, ?_, ?_⟩
  · rw [hunfold, getAllSubsets_length, hfl_len]
  · intro l
    rw [hunfold]
    exact mem_getAllSubsets
  · intro l hl
    have hsub := mem_getAllSubsets.mp (hunfold ▸ hl)
    refine ⟨fun hfl' => (hmem_fl f (hsub.subset hfl')).1 rfl, ?_, ?_⟩
    · calc l.length ≤ _ := hsub.length_le
        _ = M - 1 := hfl_len
    · exact fun x hx => (hmem_fl x (hsub.subset hx)).2

/-- Witness for C8 at `M = 2`, `f = 1`. -/
theorem c8_other_feature_subsets_witness :
    (getAllOtherFeatureSubsets ((2 : ℕ) : ℤ) 1).length = 2 ^ (2 - 1) ∧
    (∀ l, l ∈ getAllOtherFeatureSubsets ((2 : ℕ) : ℤ) 1 ↔
      l.Sublist (((List.range 2).map (fun i : ℕ => (i : ℤ))).filter (fun i => i != 1))) ∧
    (∀ l ∈ getAllOtherFeatureSubsets ((2 : ℕ) : ℤ) 1,
      (1 : ℤ) ∉ l ∧ l.length ≤ 2 - 1 ∧ ∀ x ∈ l, 0 ≤ x ∧ x < ((2 : ℕ) : ℤ)) :=
  c8_other_feature_subsets 2 1 (by norm_num) (by norm_num) (by norm_num)

/-! ### The permutation weight -/

theorem permutationFactor_eq (M s : ℕ) (h : s < M) :
    permutationFactor (M : ℤ) (s : ℤ) = some (permFactorQ M s) := by
  have h1 : ((M : ℤ) - (s : ℤ) - 1).toNat = M - s - 1 := by omega
  have h2 : (0 : ℤ) ≤ (M : ℤ) - (s : ℤ) - 1 := by omega
  unfold permutationFactor factorialZ
  rw [if_pos (Int.natCast_nonneg s), if_pos h2, if_pos (Int.natCast_nonneg M)]
  simp [permFactorQ, h1]

theorem permFactorQ_pos (M s : ℕ) : 0 < permFactorQ M s := by
  unfold permFactorQ
  have h1 : (0 : ℚ) < (s.factorial : ℚ) := by
    exact_mod_cast s.factorial_pos
  have h2 : (0 : ℚ) < ((M - s - 1).factorial : ℚ) := by
    exact_mod_cast (M - s - 1).factorial_pos
  have h3 : (0 : ℚ) < (M.factorial : ℚ) := by
    exact_mod_cast M.factorial_pos
  exact div_pos (mul_pos h1 h2) h3

/-- Counterexample to C4 as stated: at `M = 3` the sum of
`_permutation_factor(3, s)` over `s = 0, 1, 2` is `5/6`, not `1`. -/
theorem c4_counterexample_sum_at_three :
    sumPermutationFactors 3 = some (5 / 6) ∧ ((5 : ℚ) / 6) ≠ 1 := by
  constructor
  · simp +decide [sumPermutationFactors, permutationFactor, factorialZ,
      List.mapM, List.mapM.loop, Nat.factorial]
    norm_num
  · norm_num

/-- C4 (amended): for every `M ≥ 1` the weight `_permutation_factor(M, s)` is
defined and strictly positive for every coalition size `s ≤ M - 1`, and the
weights sum to 1 over all coalitions: summing over sizes `s = 0 .. M-1` with
each size counted once per coalition of that size (`(M-1).choose s` many)
gives exactly 1 (summing one term per size gives `5/6` at `M = 3`, see the
counterexample). -/
theorem c4_permutation_factor_amended (M : ℕ) (hM : 1 ≤ M) :
    (∀ s : ℕ, s ≤ M - 1 →
      permutationFactor (M : ℤ) (s : ℤ) = some (permFactorQ M s) ∧ 0 < permFactorQ M s) ∧
    (∑ s ∈ Finset.range M, (((M - 1).choose s : ℚ) * permFactorQ M s)) = 1 := by
  constructor
  · intro s hs
    exact ⟨permutationFactor_eq M s (by omega), permFactorQ_pos M s⟩
  · have key : ∀ s ∈ Finset.range M,
        (((M - 1).choose s : ℚ) * permFactorQ M s)
          = ((M - 1).factorial : ℚ) / (M.factorial : ℚ) := by
      intro s hs
      have hsM : s ≤ M - 1 := by
        have := Finset.mem_range.mp hs
        omega
      have hsub : M - s - 1 = (M - 1) - s := by omega
      unfold permFactorQ
      rw [hsub, ← mul_div_assoc]
      congr 1
      have hchoose := Nat.choose_mul_factorial_mul_factorial hsM
      calc ((M - 1).choose s : ℚ) * ((s.factorial : ℚ) * (((M - 1) - s).factorial : ℚ))
          = (((M - 1).choose s * s.factorial * ((M - 1) - s).factorial : ℕ) : ℚ) := by
            push_cast; ring
        _ = ((M - 1).factorial : ℚ) := by rw [hchoose]
    rw [Finset.sum_congr rfl key, Finset.sum_const, Finset.card_range, nsmul_eq_mul]
    have hfac : (M.factorial : ℚ) ≠ 0 := by
      exact_mod_cast M.factorial_ne_zero
    have hMfac : (M : ℚ) * ((M - 1).factorial : ℚ) = (M.factorial : ℚ) := by
      rcases Nat.exists_eq_add_of_le hM with ⟨k, rfl⟩
      push_cast [Nat.add_sub_cancel_left, Nat.factorial]
      ring_nf
      rw [Nat.add_comm 1 k, Nat.factorial_succ]
      push_cast
      ring
    rw [mul_div_assoc']
    rw [hMfac]
    exact div_self hfac

/-- Witness for C4 at `M = 3`. -/
theorem c4_permutation_factor_amended_witness :
    (∀ s : ℕ, s ≤ 3 - 1 →
      permutationFactor ((3 : ℕ) : ℤ) (s : ℤ) = some (permFactorQ 3 s) ∧ 0 < permFactorQ 3 s) ∧
    (∑ s ∈ Finset.range 3, (((3 - 1).choose s : ℚ) * permFactorQ 3 s)) = 1 :=
  c4_permutation_factor_amended 3 (by norm_num)

/-! ### The object state is never mutated -/

theorem foldl_state_const {σ α β : Type} (f : β × σ → α → β × σ)
    (hf : ∀ p a, (f p a).2 = p.2) (l : List α) (p : β × σ) :
    (l.foldl f p).2 = p.2 := by
  induction l generalizing p with
  | nil => rfl
  | cons a l ih => rw [List.foldl_cons, ih (f p a), hf]

theorem subsetModelApproximationSt_state (st : ExplainerState) (S : List ℤ)
    (inst : List ℚ) : (subsetModelApproximationSt st S inst).2 = st := rfl

theorem computeSingleShapleyValueSt_state (st : ExplainerState) (feature : ℤ)
    (inst : List ℚ) : (computeSingleShapleyValueSt st feature inst).2 = st := by
  unfold computeSingleShapleyValueSt
  refine foldl_state_const _ ?_ _ _
  intro p S
  cases p.1 <;> cases permutationFactor (inst.length : ℤ) (S.length : ℤ) <;> rfl

theorem shapleyValuesSt_state (st : ExplainerState) (X : List (List ℚ)) :
    (shapleyValuesSt st X).2 = st := by
  unfold shapleyValuesSt
  refine foldl_state_const _ ?_ _ _
  intro p row
  dsimp only
  have hinner : ((List.range row.length).foldl (fun q j =>
      let r := computeSingleShapleyValueSt q.2 (j : ℤ) row
      (match q.1, r.1 with
       | some acc, some v => some (acc ++ [v])
       | _, _ => none, r.2)) (some [], p.2)).2 = p.2 := by
    refine foldl_state_const _ ?_ _ _
    intro q j
    simp only [computeSingleShapleyValueSt_state]
  cases hp : p.1 <;> simp_all

/-- C6: every call of `shapley_values` — and of the internal operations it
invokes — leaves the stored background dataset (indeed the whole object
state) unchanged: each call only reads the state it received and writes to a
private copy. -/
theorem c6_background_never_mutated (st : ExplainerState) (X : List (List ℚ)) :
    (shapleyValuesSt st X).2.background = st.background ∧
    (∀ feature inst, (computeSingleShapleyValueSt st feature inst).2.background
      = st.background) ∧
    (∀ S inst, (subsetModelApproximationSt st S inst).2.background = st.background) :=
  ⟨by rw [shapleyValuesSt_state],
   fun feature inst => by rw [computeSingleShapleyValueSt_state],
   fun S inst => by rw [subsetModelApproximationSt_state]⟩

/-! ### The spec's concrete scenario, evaluated on the code -/

/-- C1: divergence of `_subset_model_approximation` from its specification.
With background `[[0,0],[2,2]]` (2 rows, 2 columns), instance `[4,6]` and
coalition `{1}`, the code returns the untouched baseline `5` — its column
loop runs over `range(len(dataset) - 1) = {0}`, so column 1 is never
overwritten — while the specified construction overwrites column 1 and
yields `20`.  For the empty coalition the code does return the baseline
mean prediction `5`, as specified. -/
theorem c1_subset_model_approximation_bug :
    subsetModelApproximation linModel bg22 [1] [4, 6] = 5 ∧
    subsetModelApproximationSpec linModel bg22 [1] [4, 6] = 20 ∧
    subsetModelApproximation linModel bg22 [] [4, 6] = 5 := by
  refine ⟨?_, ?_, ?_⟩ <;>
    simp +decide [subsetModelApproximation, subsetModelApproximationSpec,
      overwriteRow, linModel, bg22] <;> norm_num

/-- C2: Shapley efficiency fails on the code.  For the spec's own scenario
(`f(x0,x1) = 2*x0 + 3*x1`, background `[[0,0],[2,2]]`, instance `[4,6]`),
`shapley_values` returns `[6, 0]`, whose sum `6` differs from
`f(4,6) - baseline = 26 - 5 = 21`. -/
theorem c2_efficiency_violated :
    shapleyValues linModel bg22 [[4, 6]] = some [[6, 0]] ∧
    linModel [[4, 6]] = [26] ∧
    subsetModelApproximation linModel bg22 [] [4, 6] = 5 ∧
    (6 : ℚ) + 0 ≠ 26 - 5 := by
  refine ⟨?_, ?_, ?_, by norm_num⟩ <;>
    simp +decide [shapleyValues, computeSingleShapleyValue, subsetModelApproximation,
      overwriteRow, linModel, bg22, getAllOtherFeatureSubsets, getAllSubsets,
      combinations, permutationFactor, factorialZ, List.mapM, List.mapM.loop,
      List.foldlM, Nat.factorial] <;> norm_num

/-- C3: on the spec's concrete scenario the code returns Shapley value `6`
for feature 0 but `0` for feature 1 (the claim expects `15`): coalitions
containing feature 1 never modify column 1, so every marginal contribution
of feature 1 vanishes. -/
theorem c3_concrete_scenario_divergence :
    computeSingleShapleyValue linModel bg22 0 [4, 6] = some 6 ∧
    computeSingleShapleyValue linModel bg22 1 [4, 6] = some 0 ∧
    (0 : ℚ) ≠ 15 := by
  refine ⟨?_, ?_, by norm_num⟩ <;>
    simp +decide [computeSingleShapleyValue, subsetModelApproximation,
      overwriteRow, linModel, bg22, getAllOtherFeatureSubsets, getAllSubsets,
      combinations, permutationFactor, factorialZ, List.foldlM, Nat.factorial] <;>
    norm_num

/-- Counterexample to C5: a model that returns 3 predictions for the 2-row
background dataset does not make the computation fail — the mismatched
output is silently averaged (`(7+8+9)/3 = 8`). -/
theorem c5_counterexample_mismatch_averaged :
    subsetModelApproximation (fun _ => [7, 8, 9]) [[0], [1]] [] [5] = 8 := by
  simp +decide [subsetModelApproximation, overwriteRow]
  norm_num

/-- C5 (amended): `_subset_model_approximation` performs no check on the
model's output: whatever list of predictions the model returns — of any
length, matching the row count or not — its mean is returned. -/
theorem c5_amended_no_output_validation (preds : List ℚ) (background : List (List ℚ))
    (S : List ℤ) (inst : List ℚ) :
    subsetModelApproximation (fun _ => preds) background S inst
      = preds.sum / (preds.length : ℚ) := rfl

/-- Counterexample to C9: calling the subset enumerator with `M = 0 ≤ 0` does
not raise — it returns normally, yielding exactly the empty subset. -/
theorem c9_counterexample_enumerator_returns :
    getAllOtherFeatureSubsets 0 0 = [[]] := rfl

/-- C9 (amended): for `M ≤ 0` the weight calculator does raise
(`math.factorial` gets the negative argument `M - s - 1`, a `ValueError`,
modelled as `none`), but the subset enumerator raises nothing: `range(M)` is
empty and the enumeration returns exactly one subset, the empty one. -/
theorem c9_amended_only_weight_raises (M s f : ℤ) (hM : M ≤ 0) (hs : 0 ≤ s) :
    permutationFactor M s = none ∧ getAllOtherFeatureSubsets M f = [[]] := by
  constructor
  · unfold permutationFactor factorialZ
    rw [if_pos hs, if_neg (by omega)]
    rfl
  · have h0 : M.toNat = 0 := Int.toNat_of_nonpos hM
    unfold getAllOtherFeatureSubsets
    rw [h0]
    rfl

/-- Witness for C9 (amended) at `M = -1`, `s = 0`, `f = 0`. -/
theorem c9_amended_only_weight_raises_witness :
    permutationFactor (-1) 0 = none ∧ getAllOtherFeatureSubsets (-1) 0 = [[]] :=
  c9_amended_only_weight_raises (-1) 0 0 (by norm_num) (by norm_num)

/-! ### Integer-dtype output -/

theorem mapM_option_map {α β γ : Type} (f : α → Option β) (g : β → γ) (l : List α) :
    l.mapM (fun a => (f a).map g) = (l.mapM f).map (fun bs => bs.map g) := by
  induction l with
  | nil => rfl
  | cons a l ih =>
    rw [List.mapM_cons, List.mapM_cons]
    cases f a <;> cases hl : l.mapM f <;> simp_all

theorem mapM_map_comp {α β γ : Type} (h : α → β) (f : β → Option γ) (l : List α) :
    (l.map h).mapM f = l.mapM (fun a => f (h a)) := by
  induction l with
  | nil => rfl
  | cons a l ih => rw [List.map_cons, List.mapM_cons, List.mapM_cons, ih]

/-- C10: `np.zeros_like(X)` gives the output the dtype of `X`, so for an
integer-dtype `X` every stored Shapley value is the truncation toward zero of
the float accumulator — the integer-dtype result is exactly the entrywise
`ratTrunc` of the float result on the cast input — and for the concrete
integer input `X = [[1]]` (identity model, background `[[0],[1]]`) the
returned value `0` differs from the exact Shapley value `1/2`. -/
theorem c10_integer_dtype_truncation :
    (∀ (model : Model) (background : List (List ℚ)) (X : List (List ℤ)),
      shapleyValuesInt model background X
        = (shapleyValues model background (X.map (fun r => r.map (fun z : ℤ => (z : ℚ))))).map
            (fun rows => rows.map (fun r => r.map ratTrunc))) ∧
    shapleyValuesInt idModel [[0], [1]] [[1]] = some [[0]] ∧
    shapleyValues idModel [[0], [1]] [[(1 : ℚ)]] = some [[1 / 2]] ∧
    ratTrunc (1 / 2) = 0 ∧ ((1 : ℚ) / 2) ≠ ((0 : ℤ) : ℚ) := by
  refine ⟨?_, ?_, ?_, ?_, by norm_num⟩
  · intro model background X
    unfold shapleyValuesInt shapleyValues
    rw [mapM_map_comp]
    simp only [List.length_map]
    rw [← mapM_option_map (fun row : List ℤ =>
      (List.range row.length).mapM (fun j : ℕ =>
        computeSingleShapleyValue model background (j : ℤ) (row.map (fun z : ℤ => (z : ℚ)))))
      (fun r => r.map ratTrunc) X]
    refine congrArg (fun F => X.mapM F) (funext (fun row => ?_))
    exact mapM_option_map _ ratTrunc _
  · simp +decide [shapleyValuesInt, computeSingleShapleyValue, subsetModelApproximation,
      overwriteRow, idModel, getAllOtherFeatureSubsets, getAllSubsets, combinations,
      permutationFactor, factorialZ, List.mapM, List.mapM.loop, List.foldlM,
      Nat.factorial, ratTrunc]
    norm_num [Int.floor_eq_iff]
  · simp +decide [shapleyValues, computeSingleShapleyValue, subsetModelApproximation,
      overwriteRow, idModel, getAllOtherFeatureSubsets, getAllSubsets, combinations,
      permutationFactor, factorialZ, List.mapM, List.mapM.loop, List.foldlM,
      Nat.factorial]
    norm_num
  · unfold ratTrunc
    rw [if_pos (by norm_num)]
    norm_num [Int.floor_eq_iff]

end ShapleyExplainer
